import Mathlib

/-!
Verification development for the hash-indexed DNA repeat-variation search of
`hash_dp_dna_analysis.py`.  The Python functions `reverse_complement`,
`hash_function`, `rolling_hash`, `process_sequence`, `add_repeat_result` and
`find_repeats_hash_dp` are shallowly embedded below: sequences are `List Char`,
Python integers are `Int` (hash arithmetic) and `Nat` (positions, lengths),
Python dicts keyed by hash value are insertion-ordered association lists, the
Python `set` of already-reported unit strings is a `List (List Char)` used only
through membership, and the in-place mutation of the shared `results` list and
`unique_sequences` set is explicit state passing of a `SearchState` pair.
`list.sort(key=len, reverse=True)`, a stable sort, is embedded as a stable
insertion sort by descending length.  The `use_parallel` branch (a two-task
thread pool joined before the merge) is modelled as the forward pass followed
by the reverse pass, each with its own empty result accumulator and with the
shared `unique_sequences` set threaded through, exactly as the tasks are
submitted.
-/

/-- Python `complement = {'A':'T','T':'A','C':'G','G':'C'}; complement.get(base, base)`. -/
def complementBase (c : Char) : Char :=
  if c = 'A' then 'T' else if c = 'T' then 'A'
  else if c = 'C' then 'G' else if c = 'G' then 'C' else c

/-- `reverse_complement`: complement of each symbol of the reversed sequence. -/
def reverse_complement (sequence : List Char) : List Char :=
  sequence.reverse.map complementBase

/-- Python `BASE_VAL = {'A':1,'C':2,'G':3,'T':4}; BASE_VAL.get(base, 0)`. -/
def BASE_VAL (c : Char) : Int :=
  if c = 'A' then 1 else if c = 'C' then 2
  else if c = 'G' then 3 else if c = 'T' then 4 else 0

/-- `hash_function`: polynomial hash, reduced modulo `mod` at every step. -/
def hash_function (sequence : List Char) (base_num : Int := 101)
    (mod : Int := 10 ^ 9 + 7) : Int :=
  sequence.foldl (fun hash_val base => (hash_val * base_num + BASE_VAL base) % mod) 0

/-- `rolling_hash`: one-position right shift update.  `pow(base_num, length-1, mod)`
is `base_num ^ (length - 1) % mod`; the Python subtraction adds `mod` back before
reducing, so with `Int` (and `%` being `Int.emod`) the value agrees exactly. -/
def rolling_hash (prev_hash : Int) (prev_char next_char : Char) (length : Nat)
    (base_num : Int := 101) (mod : Int := 10 ^ 9 + 7) : Int :=
  let prev_val := BASE_VAL prev_char
  let next_val := BASE_VAL next_char
  let highest_digit_val := (prev_val * (base_num ^ (length - 1) % mod)) % mod
  ((prev_hash - highest_digit_val + mod) * base_num + next_val) % mod

/-- Python slice `s[start : start + len]` for nonnegative indices. -/
def listSlice (s : List Char) (start len : Nat) : List Char := (s.drop start).take len

/-- Python `s[i]` for an in-range nonnegative index. -/
def charAt (s : List Char) (i : Nat) : Char := s.getD i 'A'

/-- The result-record dict
`{'sequence', 'ref_positions', 'query_positions', 'repeat_count', 'reversed'}`. -/
structure RepeatRec where
  sequence : List Char
  ref_positions : List Nat
  query_positions : List Nat
  repeat_count : Nat
  reversed : Bool
deriving DecidableEq

/-- The pair of the shared `results` list and the shared `unique_sequences` set. -/
abbrev SearchState := List RepeatRec × List (List Char)

/-- One `map.setdefault(h, []).append(i)` step on an insertion-ordered hash map:
an existing key keeps its place and its position list grows at the end, a new
key is appended at the end (Python dict insertion order). -/
def insertToIndex : List (Int × List Nat) → Int → Nat → List (Int × List Nat)
  | [], h, i => [(h, [i])]
  | (k, ps) :: rest, h, i =>
    if k = h then (k, ps ++ [i]) :: rest else (k, ps) :: insertToIndex rest h i

/-- Key lookup (`h in map` / `map[h]`). -/
def indexFind? : List (Int × List Nat) → Int → Option (List Nat)
  | [], _ => none
  | (k, ps) :: rest, h => if k = h then some ps else indexFind? rest h

/-- The rolling part of the scan
`for i in range(1, n - L + 1): curr = rolling_hash(curr, s[i-1], s[i+L-1], L)`,
returning the successive hash values. -/
def rollFrom (s : List Char) (L : Nat) : Int → Nat → Nat → List Int
  | _, _, 0 => []
  | h, i, steps + 1 =>
    let h2 := rolling_hash h (charAt s (i - 1)) (charAt s (i + L - 1)) L
    h2 :: rollFrom s L h2 (i + 1) steps

/-- Hash values of all windows of length `L`: the first window hashed directly,
the remaining `s.length - L` windows by rolling updates (used when `L ≤ s.length`). -/
def windowHashes (s : List Char) (L : Nat) : List Int :=
  let h0 := hash_function (listSlice s 0 L)
  h0 :: rollFrom s L h0 1 (s.length - L)

/-- Build the per-length hash map from the window-hash list, positions `i, i+1, ...`. -/
def buildIndexAux : List Int → Nat → List (Int × List Nat) → List (Int × List Nat)
  | [], _, m => m
  | h :: hs, i, m => buildIndexAux hs (i + 1) (insertToIndex m h i)

/-- The `hash -> ordered list of start positions` map of a window-hash list. -/
def buildIndex (hs : List Int) : List (Int × List Nat) := buildIndexAux hs 0 []

/-- `add_repeat_result`: drop the candidate if a record with the same sequence
exists, or if a longer record of the same orientation contains all its
reference positions; otherwise append it. -/
def add_repeat_result (results : List RepeatRec) (subseq : List Char)
    (ref_positions query_positions : List Nat) (is_reversed : Bool)
    (repeat_count length : Nat) : List RepeatRec :=
  if results.any (fun result => result.sequence == subseq) then results
  else if results.any (fun result =>
      result.reversed == is_reversed && decide (length < result.sequence.length) &&
        ref_positions.all (fun p => result.ref_positions.contains p)) then results
  else results ++ [{ sequence := subseq, ref_positions := ref_positions,
                     query_positions := query_positions, repeat_count := repeat_count,
                     reversed := is_reversed }]

/-- The `for ref_pos in ref_positions` loop of `process_sequence`: skip sequences
already in `unique_sequences`, verify each same-hash query position by exact
comparison, and record the candidate when more than one query position matches. -/
def refPosLoop (reference query : List Char) (is_reversed : Bool) (L : Nat)
    (qpos : List Nat) : List Nat → SearchState → SearchState
  | [], st => st
  | rp :: rps, st =>
    let ref_subseq := listSlice reference rp L
    if ref_subseq ∈ st.2 then refPosLoop reference query is_reversed L qpos rps st
    else
      let query_positions := qpos.filter (fun qp => listSlice query qp L == ref_subseq)
      if 1 < query_positions.length then
        refPosLoop reference query is_reversed L qpos rps
          (add_repeat_result st.1 ref_subseq [rp] query_positions is_reversed
            (query_positions.length - 1) L,
           ref_subseq :: st.2)
      else refPosLoop reference query is_reversed L qpos rps st

/-- The `for hash_val, ref_positions in ref_hash_map.items()` loop. -/
def refLoop (reference query : List Char) (is_reversed : Bool) (L : Nat)
    (qmap : List (Int × List Nat)) : List (Int × List Nat) → SearchState → SearchState
  | [], st => st
  | (h, ref_positions) :: rest, st =>
    let st2 :=
      match indexFind? qmap h with
      | some qpos => refPosLoop reference query is_reversed L qpos ref_positions st
      | none => st
    refLoop reference query is_reversed L qmap rest st2

/-- The body of one iteration of the length loop of `process_sequence`: build the
reference map (when `L` fits), build the query map and intersect (when `L` fits). -/
def processLength (reference query : List Char) (is_reversed : Bool) (L : Nat)
    (st : SearchState) : SearchState :=
  let ref_hash_map := if L ≤ reference.length then buildIndex (windowHashes reference L) else []
  if L ≤ query.length then
    refLoop reference query is_reversed L (buildIndex (windowHashes query L)) ref_hash_map st
  else st

/-- The `for length in range(min_length, max_length + 1)` loop with the early
break `if len(local_results) > 100 and length < min_length + 5: break`. -/
def lengthLoop (reference query : List Char) (is_reversed : Bool) (min_length : Nat) :
    List Nat → SearchState → SearchState
  | [], st => st
  | L :: rest, st =>
    if 100 < st.1.length ∧ L < min_length + 5 then st
    else lengthLoop reference query is_reversed min_length rest
      (processLength reference query is_reversed L st)

/-- Python `range(start, start + n)`. -/
def rangeList : Nat → Nat → List Nat
  | _, 0 => []
  | start, n + 1 => start :: rangeList (start + 1) n

/-- `process_sequence` on the caller-provided `results` and `unique_sequences`,
with `max_length` re-clamped to both sequence lengths as in the source. -/
def process_sequence (reference query : List Char) (is_reversed : Bool)
    (results : List RepeatRec) (min_length max_length : Nat)
    (unique_sequences : List (List Char)) : SearchState :=
  let eff := min max_length (min reference.length query.length)
  lengthLoop reference query is_reversed min_length
    (rangeList min_length (eff + 1 - min_length)) (results, unique_sequences)

/-- Stable insertion step for sorting by descending `len(sequence)`: a new
element goes after all strictly longer ones and before any of equal length that
was discovered later. -/
def sortInsert (x : RepeatRec) : List RepeatRec → List RepeatRec
  | [] => [x]
  | y :: ys =>
    if x.sequence.length < y.sequence.length then y :: sortInsert x ys else x :: y :: ys

/-- Stable sort by descending `len(sequence)`, the extensional behaviour of
Python `results.sort(key=lambda x: len(x['sequence']), reverse=True)`. -/
def sortByLenDesc : List RepeatRec → List RepeatRec
  | [] => []
  | x :: xs => sortInsert x (sortByLenDesc xs)

/-- `find_repeats_hash_dp` before the final sort: the clamping of `max_length`,
the `min_length > max_length` early return, and the two orientation passes,
parallel (separate empty accumulators, shared seen-set) when
`use_parallel and max_length > 20`, otherwise sequential on the shared list. -/
def find_repeats_raw (reference query : List Char) (min_length : Nat)
    (max_length : Option Nat) (use_parallel : Bool) : List RepeatRec :=
  let ref_len := reference.length
  let query_len := query.length
  let maxL := match max_length with
    | none => min ref_len query_len
    | some m => min m (min ref_len query_len)
  if maxL < min_length then []
  else if use_parallel && decide (20 < maxL) then
    let fw := process_sequence reference query false [] min_length maxL []
    let rv := process_sequence reference (reverse_complement query) true [] min_length maxL fw.2
    fw.1 ++ rv.1
  else
    let fw := process_sequence reference query false [] min_length maxL []
    let rv := process_sequence reference (reverse_complement query) true fw.1 min_length maxL fw.2
    rv.1

/-- `find_repeats_hash_dp`: the search followed by the descending stable sort. -/
def find_repeats_hash_dp (reference query : List Char) (min_length : Nat := 3)
    (max_length : Option Nat := none) (use_parallel : Bool := true) : List RepeatRec :=
  sortByLenDesc (find_repeats_raw reference query min_length max_length use_parallel)

/-- Number of start positions of `s` at which the substring `t` occurs. -/
def countOcc (s t : List Char) : Nat :=
  ((rangeList 0 (s.length + 1)).filter (fun i => listSlice s i t.length == t)).length

/-- The un-reduced polynomial value of a sequence in base `b`. -/
def polyH (b : Int) (s : List Char) : Int :=
  s.foldl (fun h c => h * b + BASE_VAL c) 0

/-- Shape of every record created by `process_sequence` at window length `L`
against the comparison sequence `query` in orientation `is_reversed`. -/
def GoodNewAt (reference query : List Char) (is_reversed : Bool) (L : Nat)
    (r : RepeatRec) : Prop :=
  r.reversed = is_reversed ∧
  (∃ rp, r.ref_positions = [rp] ∧ r.sequence = listSlice reference rp L ∧
    rp + L ≤ reference.length) ∧
  (∀ qp ∈ r.query_positions, listSlice query qp L = r.sequence) ∧
  2 ≤ r.query_positions.length ∧
  r.repeat_count = r.query_positions.length - 1

/-- Every record of the final list comes from one of the two orientation passes:
its unit is a reference window of some length `L ≥ min_length`, its single
reference position carries that window, and every query position was verified by
exact comparison against the orientation's comparison sequence. -/
def FromSearch (reference query : List Char) (minL : Nat) (r : RepeatRec) : Prop :=
  ∃ L, minL ≤ L ∧
    GoodNewAt reference (if r.reversed = true then reverse_complement query else query)
      r.reversed L r

/-- Invariant tying the `results` list to the `unique_sequences` set: reported
unit strings are pairwise distinct and each of them is in the seen-set. -/
def DistinctInv (st : SearchState) : Prop :=
  st.1.Pairwise (fun a b => a.sequence ≠ b.sequence) ∧ ∀ r ∈ st.1, r.sequence ∈ st.2

/-! ### Concrete inputs used by witnesses and by the evaluation theorems -/

def exRef : List Char := ['A','C','G']

def exQuery : List Char := ['A','C','G','A','C','G']

def exRec : RepeatRec :=
  { sequence := ['A','C','G'], ref_positions := [0], query_positions := [0, 3],
    repeat_count := 1, reversed := false }

def c1ref : List Char := ['A','A','A','A']

def c1query : List Char := ['A','A','A','A','A','A']

def c3ref : List Char :=
  ['A','G','C','A','C','A','G','G','G','A','A','C','C','G','G','C','T','T','T','T','T']

def c3query : List Char :=
  ['A','G','C','A','C','A','G','G','G','A','A','C','C','G','G','C',
   'A','G','C','A','C','A','G','G','G','A','A','C','C','G','G','C','A','A','A','A']

/-! ### Rolling-hash mathematics (claim C5) -/

theorem foldl_hash_emod (b m : Int) (s : List Char) : ∀ a : Int,
    s.foldl (fun h c => (h * b + BASE_VAL c) % m) (a % m) =
      (s.foldl (fun h c => h * b + BASE_VAL c) a) % m := by
  induction s with
  | nil => intro a; rfl
  | cons c s ih =>
    intro a
    simp only [List.foldl_cons]
    have h1 : (a % m * b + BASE_VAL c) % m = (a * b + BASE_VAL c) % m := by
      conv_lhs => rw [Int.add_emod, Int.mul_emod, Int.emod_emod_of_dvd a dvd_rfl,
        ← Int.mul_emod, ← Int.add_emod]
    rw [h1]
    exact ih (a * b + BASE_VAL c)

theorem hash_function_eq_polyH (s : List Char) (b m : Int) :
    hash_function s b m = polyH b s % m := by
  have h0 := foldl_hash_emod b m s 0
  rw [Int.zero_emod] at h0
  simpa [hash_function, polyH] using h0

theorem polyH_acc (b : Int) (s : List Char) : ∀ a : Int,
    s.foldl (fun h c => h * b + BASE_VAL c) a = a * b ^ s.length + polyH b s := by
  induction s with
  | nil => intro a; simp [polyH]
  | cons c s ih =>
    intro a
    have h2 : polyH b (c :: s) = (0 * b + BASE_VAL c) * b ^ s.length + polyH b s := by
      show List.foldl (fun h x => h * b + BASE_VAL x) 0 (c :: s) = _
      rw [List.foldl_cons, ih]
    simp only [List.foldl_cons, List.length_cons]
    rw [ih (a * b + BASE_VAL c), h2]
    ring

theorem polyH_cons (b : Int) (c : Char) (t : List Char) :
    polyH b (c :: t) = BASE_VAL c * b ^ t.length + polyH b t := by
  show List.foldl (fun h x => h * b + BASE_VAL x) 0 (c :: t) = _
  rw [List.foldl_cons, polyH_acc]
  ring

theorem polyH_append_singleton (b : Int) (t : List Char) (d : Char) :
    polyH b (t ++ [d]) = polyH b t * b + BASE_VAL d := by
  simp [polyH, List.foldl_append]

theorem listSlice_length (s : List Char) (p n : Nat) :
    (listSlice s p n).length = min n (s.length - p) := by
  simp [listSlice]

theorem charAt_of_lt (s : List Char) (i : Nat) (h : i < s.length) : charAt s i = s[i] := by
  simp [charAt, List.getD_eq_getElem?_getD, List.getElem?_eq_getElem h]

theorem listSlice_eq_cons (s : List Char) (i L : Nat) (hL : 1 ≤ L) (hi : i < s.length) :
    listSlice s i L = charAt s i :: listSlice s (i + 1) (L - 1) := by
  obtain ⟨L2, rfl⟩ : ∃ L2, L = L2 + 1 := ⟨L - 1, by omega⟩
  unfold listSlice
  rw [List.drop_eq_getElem_cons hi, List.take_succ_cons, charAt_of_lt s i hi]
  exact rfl

theorem listSlice_eq_append (s : List Char) (i L : Nat) (hL : 1 ≤ L) (hi : i + L < s.length) :
    listSlice s (i + 1) L = listSlice s (i + 1) (L - 1) ++ [charAt s (i + L)] := by
  obtain ⟨L2, rfl⟩ : ∃ L2, L = L2 + 1 := ⟨L - 1, by omega⟩
  have hlen : L2 < (s.drop (i + 1)).length := by
    rw [List.length_drop]; omega
  have hidx : i + 1 + L2 < s.length := by omega
  have hidx2 : i + (L2 + 1) < s.length := by omega
  unfold listSlice
  rw [List.take_succ, List.getElem?_eq_getElem hlen]
  have hget : (s.drop (i + 1))[L2] = s[i + 1 + L2] := by
    rw [← List.getElem_drop]
  have harith : i + (L2 + 1) = i + 1 + L2 := by omega
  rw [hget, charAt_of_lt s (i + (L2 + 1)) hidx2]
  simp [harith]

theorem rolling_hash_shift (b m : Int) (s : List Char) (L i : Nat)
    (hL : 1 ≤ L) (hi : i + L < s.length) :
    rolling_hash (hash_function (listSlice s i L) b m) (charAt s i) (charAt s (i + L)) L b m =
      hash_function (listSlice s (i + 1) L) b m := by
  set t := listSlice s (i + 1) (L - 1) with ht
  have htlen : t.length = L - 1 := by
    rw [ht, listSlice_length]
    exact min_eq_left (by omega)
  have h1 : listSlice s i L = charAt s i :: t := listSlice_eq_cons s i L hL (by omega)
  have h2 : listSlice s (i + 1) L = t ++ [charAt s (i + L)] := listSlice_eq_append s i L hL hi
  rw [h1, h2, hash_function_eq_polyH, hash_function_eq_polyH, polyH_append_singleton]
  have hcons : polyH b (charAt s i :: t) = BASE_VAL (charAt s i) * b ^ (L - 1) + polyH b t := by
    rw [polyH_cons, htlen]
  simp only [rolling_hash]
  have e1 : Int.ModEq m (polyH b (charAt s i :: t) % m)
      (BASE_VAL (charAt s i) * b ^ (L - 1) + polyH b t) := by
    rw [hcons]; exact Int.emod_emod_of_dvd _ dvd_rfl
  have e2 : Int.ModEq m ((BASE_VAL (charAt s i) * (b ^ (L - 1) % m)) % m)
      (BASE_VAL (charAt s i) * b ^ (L - 1)) := by
    show _ % m = _ % m
    conv_lhs => rw [Int.emod_emod_of_dvd _ dvd_rfl, Int.mul_emod,
      Int.emod_emod_of_dvd _ dvd_rfl, ← Int.mul_emod]
  have e3 : Int.ModEq m m 0 := by
    show m % m = 0 % m
    rw [Int.emod_self, Int.zero_emod]
  have e4 := (((e1.sub e2).add e3).mul_right b).add_right (BASE_VAL (charAt s (i + L)))
  have harg : ((BASE_VAL (charAt s i) * b ^ (L - 1) + polyH b t) -
        (BASE_VAL (charAt s i) * b ^ (L - 1)) + 0) * b + BASE_VAL (charAt s (i + L)) =
      polyH b t * b + BASE_VAL (charAt s (i + L)) := by ring
  rw [harg] at e4
  exact e4

theorem foldl_hash_range (b m : Int) (hm : 0 < m) (s : List Char) : ∀ a : Int,
    0 ≤ a → a < m →
    0 ≤ s.foldl (fun h c => (h * b + BASE_VAL c) % m) a ∧
      s.foldl (fun h c => (h * b + BASE_VAL c) % m) a < m := by
  induction s with
  | nil => intro a h1 h2; exact ⟨h1, h2⟩
  | cons c s ih =>
    intro a _ _
    simp only [List.foldl_cons]
    exact ih _ (Int.emod_nonneg _ (by omega)) (Int.emod_lt_of_pos _ hm)

/-- C5: for every string `s`, window length `L ≥ 1` and start `i` with
`i + L < len(s)`, `rolling_hash(hash_function(s[i:i+L]), s[i], s[i+L], L)` equals
`hash_function(s[i+1:i+L+1])`, and every value produced by `hash_function` and
`rolling_hash` lies in `[0, 10^9+7)`. -/
theorem C5_rolling_hash_shift_and_range :
    (∀ (s : List Char) (L i : Nat), 1 ≤ L → i + L < s.length →
      rolling_hash (hash_function (listSlice s i L)) (charAt s i) (charAt s (i + L)) L =
        hash_function (listSlice s (i + 1) L)) ∧
    (∀ s : List Char, 0 ≤ hash_function s ∧ hash_function s < 10 ^ 9 + 7) ∧
    (∀ (h : Int) (c d : Char) (L : Nat),
      0 ≤ rolling_hash h c d L ∧ rolling_hash h c d L < 10 ^ 9 + 7) := by
  refine ⟨fun s L i hL hi => rolling_hash_shift 101 (10 ^ 9 + 7) s L i hL hi, ?_, ?_⟩
  · intro s
    exact foldl_hash_range 101 (10 ^ 9 + 7) (by norm_num) s 0 le_rfl (by norm_num)
  · intro h c d L
    simp only [rolling_hash]
    exact ⟨Int.emod_nonneg _ (by norm_num), Int.emod_lt_of_pos _ (by norm_num)⟩

/-! ### Position bounds of the per-length hash maps -/

theorem rollFrom_length (s : List Char) (L : Nat) : ∀ (h : Int) (i steps : Nat),
    (rollFrom s L h i steps).length = steps := by
  intro h i steps
  induction steps generalizing h i with
  | zero => rfl
  | succ n ih => simp [rollFrom, ih]

theorem windowHashes_length (s : List Char) (L : Nat) :
    (windowHashes s L).length = s.length - L + 1 := by
  simp [windowHashes, rollFrom_length]

theorem mem_insertToIndex_pos : ∀ (m : List (Int × List Nat)) (h : Int) (i : Nat)
    (e : Int × List Nat) (p : Nat), e ∈ insertToIndex m h i → p ∈ e.2 →
    (∃ e2 ∈ m, p ∈ e2.2) ∨ p = i := by
  intro m
  induction m with
  | nil =>
    intro h i e p he hp
    simp only [insertToIndex, List.mem_singleton] at he
    subst he
    simp only [List.mem_singleton] at hp
    exact Or.inr hp
  | cons kv rest ih =>
    intro h i e p he hp
    obtain ⟨k, ps⟩ := kv
    simp only [insertToIndex] at he
    by_cases hk : k = h
    · rw [if_pos hk] at he
      rcases List.mem_cons.mp he with rfl | hmem
      · rcases List.mem_append.mp hp with h1 | h1
        · exact Or.inl ⟨(k, ps), List.mem_cons_self _ _, h1⟩
        · simp only [List.mem_singleton] at h1
          exact Or.inr h1
      · exact Or.inl ⟨e, List.mem_cons_of_mem _ hmem, hp⟩
    · rw [if_neg hk] at he
      rcases List.mem_cons.mp he with rfl | hmem
      · exact Or.inl ⟨(k, ps), List.mem_cons_self _ _, hp⟩
      · rcases ih h i e p hmem hp with ⟨e2, he2, hp2⟩ | h1
        · exact Or.inl ⟨e2, List.mem_cons_of_mem _ he2, hp2⟩
        · exact Or.inr h1

theorem buildIndexAux_pos : ∀ (hs : List Int) (i : Nat) (m : List (Int × List Nat))
    (e : Int × List Nat) (p : Nat), e ∈ buildIndexAux hs i m → p ∈ e.2 →
    (∃ e2 ∈ m, p ∈ e2.2) ∨ (i ≤ p ∧ p < i + hs.length) := by
  intro hs
  induction hs with
  | nil => intro i m e p he hp; exact Or.inl ⟨e, he, hp⟩
  | cons h hs ih =>
    intro i m e p he hp
    simp only [buildIndexAux] at he
    rcases ih (i + 1) (insertToIndex m h i) e p he hp with ⟨e2, he2, hp2⟩ | hrange
    · rcases mem_insertToIndex_pos m h i e2 p he2 hp2 with hm | rfl
      · exact Or.inl hm
      · right; rw [List.length_cons]; omega
    · right; rw [List.length_cons]; omega

theorem buildIndex_pos (hs : List Int) (e : Int × List Nat) (p : Nat)
    (he : e ∈ buildIndex hs) (hp : p ∈ e.2) : p < hs.length := by
  rcases buildIndexAux_pos hs 0 [] e p he hp with ⟨e2, he2, _⟩ | h
  · simp at he2
  · omega

/-! ### What a newly produced record looks like -/

theorem mem_add_repeat_result {results : List RepeatRec} {subseq : List Char}
    {rps qps : List Nat} {is_rev : Bool} {cnt L : Nat} {r : RepeatRec}
    (h : r ∈ add_repeat_result results subseq rps qps is_rev cnt L) :
    r ∈ results ∨ r = { sequence := subseq, ref_positions := rps, query_positions := qps,
                        repeat_count := cnt, reversed := is_rev } := by
  unfold add_repeat_result at h
  split at h
  · exact Or.inl h
  · split at h
    · exact Or.inl h
    · rcases List.mem_append.mp h with h2 | h2
      · exact Or.inl h2
      · simp only [List.mem_singleton] at h2
        exact Or.inr h2

theorem refPosLoop_spec (reference query : List Char) (is_rev : Bool) (L : Nat)
    (qpos : List Nat) :
    ∀ (rps : List Nat) (st : SearchState) (r : RepeatRec),
      (∀ rp ∈ rps, rp + L ≤ reference.length) →
      r ∈ (refPosLoop reference query is_rev L qpos rps st).1 →
      r ∈ st.1 ∨ GoodNewAt reference query is_rev L r := by
  intro rps
  induction rps with
  | nil => intro st r _ hr; exact Or.inl hr
  | cons rp rps ih =>
    intro st r hbound hr
    simp only [refPosLoop] at hr
    split at hr
    · exact ih st r (fun p hp => hbound p (List.mem_cons_of_mem _ hp)) hr
    · split at hr
      case isTrue hcond =>
        rcases ih _ r (fun p hp => hbound p (List.mem_cons_of_mem _ hp)) hr with hin | hgood
        · rcases mem_add_repeat_result hin with h2 | rfl
          · exact Or.inl h2
          · right
            refine ⟨rfl, ⟨rp, rfl, rfl, hbound rp (List.mem_cons_self _ _)⟩, ?_, ?_, rfl⟩
            · intro qp hqp
              exact eq_of_beq (List.mem_filter.mp hqp).2
            · show 2 ≤ (qpos.filter _).length
              omega
        · exact Or.inr hgood
      case isFalse =>
        exact ih st r (fun p hp => hbound p (List.mem_cons_of_mem _ hp)) hr

theorem refLoop_spec (reference query : List Char) (is_rev : Bool) (L : Nat)
    (qmap : List (Int × List Nat)) :
    ∀ (entries : List (Int × List Nat)) (st : SearchState) (r : RepeatRec),
      (∀ e ∈ entries, ∀ p ∈ e.2, p + L ≤ reference.length) →
      r ∈ (refLoop reference query is_rev L qmap entries st).1 →
      r ∈ st.1 ∨ GoodNewAt reference query is_rev L r := by
  intro entries
  induction entries with
  | nil => intro st r _ hr; exact Or.inl hr
  | cons e rest ih =>
    obtain ⟨h, ref_positions⟩ := e
    intro st r hbound hr
    simp only [refLoop] at hr
    cases hfind : indexFind? qmap h with
    | none =>
      rw [hfind] at hr
      exact ih st r (fun e2 he2 => hbound e2 (List.mem_cons_of_mem _ he2)) hr
    | some qpos =>
      rw [hfind] at hr
      rcases ih _ r (fun e2 he2 => hbound e2 (List.mem_cons_of_mem _ he2)) hr with h2 | hg
      · rcases refPosLoop_spec reference query is_rev L qpos ref_positions st r
          (fun p hp => hbound (h, ref_positions) (List.mem_cons_self _ _) p hp) h2 with h3 | hg
        · exact Or.inl h3
        · exact Or.inr hg
      · exact Or.inr hg

theorem processLength_spec (reference query : List Char) (is_rev : Bool) (L : Nat)
    (st : SearchState) (r : RepeatRec)
    (hr : r ∈ (processLength reference query is_rev L st).1) :
    r ∈ st.1 ∨ GoodNewAt reference query is_rev L r := by
  simp only [processLength] at hr
  split at hr
  case isTrue hq =>
    by_cases hLref : L ≤ reference.length
    · rw [if_pos hLref] at hr
      refine refLoop_spec reference query is_rev L _ _ st r ?_ hr
      intro e he p hp
      have hlt := buildIndex_pos _ e p he hp
      rw [windowHashes_length] at hlt
      omega
    · rw [if_neg hLref] at hr
      exact Or.inl hr
  case isFalse => exact Or.inl hr

theorem lengthLoop_spec (reference query : List Char) (is_rev : Bool) (minL : Nat) :
    ∀ (lengths : List Nat) (st : SearchState) (r : RepeatRec),
      (∀ L ∈ lengths, minL ≤ L) →
      r ∈ (lengthLoop reference query is_rev minL lengths st).1 →
      r ∈ st.1 ∨ ∃ L, minL ≤ L ∧ GoodNewAt reference query is_rev L r := by
  intro lengths
  induction lengths with
  | nil => intro st r _ hr; exact Or.inl hr
  | cons L rest ih =>
    intro st r hb hr
    simp only [lengthLoop] at hr
    split at hr
    · exact Or.inl hr
    · rcases ih _ r (fun L2 h2 => hb L2 (List.mem_cons_of_mem _ h2)) hr with h2 | h2
      · rcases processLength_spec reference query is_rev L st r h2 with h3 | h3
        · exact Or.inl h3
        · exact Or.inr ⟨L, hb L (List.mem_cons_self _ _), h3⟩
      · exact Or.inr h2

theorem mem_rangeList_le : ∀ (n start L : Nat), L ∈ rangeList start n → start ≤ L := by
  intro n
  induction n with
  | zero => intro start L h; simp [rangeList] at h
  | succ n ih =>
    intro start L h
    simp only [rangeList] at h
    rcases List.mem_cons.mp h with rfl | h2
    · exact le_rfl
    · have := ih (start + 1) L h2; omega

theorem process_sequence_spec (reference query : List Char) (is_rev : Bool)
    (results : List RepeatRec) (minL maxL : Nat) (uniq : List (List Char))
    (r : RepeatRec)
    (hr : r ∈ (process_sequence reference query is_rev results minL maxL uniq).1) :
    r ∈ results ∨ ∃ L, minL ≤ L ∧ GoodNewAt reference query is_rev L r := by
  simp only [process_sequence] at hr
  exact lengthLoop_spec reference query is_rev minL _ (results, uniq) r
    (fun L hL => mem_rangeList_le _ _ _ hL) hr

theorem mem_find_raw (reference query : List Char) (minL : Nat) (maxLopt : Option Nat)
    (par : Bool) (r : RepeatRec)
    (hr : r ∈ find_repeats_raw reference query minL maxLopt par) :
    FromSearch reference query minL r := by
  simp only [find_repeats_raw] at hr
  split at hr
  · simp at hr
  · split at hr
    · rcases List.mem_append.mp hr with h1 | h1
      · rcases process_sequence_spec _ _ _ _ _ _ _ _ h1 with h2 | ⟨L, hL, hg⟩
        · simp at h2
        · have hrev : r.reversed = false := hg.1
          refine ⟨L, hL, ?_⟩
          rw [hrev]
          simpa using hg
      · rcases process_sequence_spec _ _ _ _ _ _ _ _ h1 with h2 | ⟨L, hL, hg⟩
        · simp at h2
        · have hrev : r.reversed = true := hg.1
          refine ⟨L, hL, ?_⟩
          rw [hrev]
          simpa using hg
    · rcases process_sequence_spec _ _ _ _ _ _ _ _ hr with h1 | ⟨L, hL, hg⟩
      · rcases process_sequence_spec _ _ _ _ _ _ _ _ h1 with h2 | ⟨L, hL, hg⟩
        · simp at h2
        · have hrev : r.reversed = false := hg.1
          refine ⟨L, hL, ?_⟩
          rw [hrev]
          simpa using hg
      · have hrev : r.reversed = true := hg.1
        refine ⟨L, hL, ?_⟩
        rw [hrev]
        simpa using hg

theorem sortInsert_perm (x : RepeatRec) : ∀ l : List RepeatRec,
    List.Perm (sortInsert x l) (x :: l) := by
  intro l
  induction l with
  | nil => exact List.Perm.refl _
  | cons y ys ih =>
    simp only [sortInsert]
    split
    · exact (ih.cons y).trans (List.Perm.swap x y ys)
    · exact List.Perm.refl _

theorem sortByLenDesc_perm : ∀ l : List RepeatRec, List.Perm (sortByLenDesc l) l := by
  intro l
  induction l with
  | nil => exact List.Perm.refl _
  | cons x xs ih => exact (sortInsert_perm x (sortByLenDesc xs)).trans (ih.cons x)

theorem sortInsert_pairwise (x : RepeatRec) : ∀ l : List RepeatRec,
    l.Pairwise (fun a b => b.sequence.length ≤ a.sequence.length) →
    (sortInsert x l).Pairwise (fun a b => b.sequence.length ≤ a.sequence.length) := by
  intro l
  induction l with
  | nil => intro _; exact List.pairwise_singleton _ _
  | cons y ys ih =>
    intro hp
    rcases List.pairwise_cons.mp hp with ⟨hy, hys⟩
    simp only [sortInsert]
    split
    case isTrue hlt =>
      refine List.pairwise_cons.mpr ⟨?_, ih hys⟩
      intro z hz
      rcases List.mem_cons.mp ((sortInsert_perm x ys).mem_iff.mp hz) with rfl | hz3
      · omega
      · exact hy z hz3
    case isFalse hge =>
      refine List.pairwise_cons.mpr ⟨?_, hp⟩
      intro z hz
      rcases List.mem_cons.mp hz with rfl | hz2
      · omega
      · have := hy z hz2; omega

theorem sortByLenDesc_pairwise : ∀ l : List RepeatRec,
    (sortByLenDesc l).Pairwise (fun a b => b.sequence.length ≤ a.sequence.length) := by
  intro l
  induction l with
  | nil => exact List.Pairwise.nil
  | cons x xs ih => exact sortInsert_pairwise x (sortByLenDesc xs) ih

theorem filter_sortInsert (x : RepeatRec) (n : Nat) : ∀ l : List RepeatRec,
    (sortInsert x l).filter (fun r => r.sequence.length == n) =
      (x :: l).filter (fun r => r.sequence.length == n) := by
  intro l
  induction l with
  | nil => rfl
  | cons y ys ih =>
    simp only [sortInsert]
    split
    case isTrue hlt =>
      by_cases hy : (y.sequence.length == n) = true
      · have hx : (x.sequence.length == n) = false := by
          have hyn : y.sequence.length = n := by simpa using hy
          simp only [beq_eq_false_iff_ne]
          omega
        simp [List.filter_cons, hy, hx, ih]
      · have hy2 : (y.sequence.length == n) = false := by
          simpa using hy
        simp [List.filter_cons, hy2, ih]
    case isFalse => rfl

theorem filter_sortByLenDesc (n : Nat) : ∀ l : List RepeatRec,
    (sortByLenDesc l).filter (fun r => r.sequence.length == n) =
      l.filter (fun r => r.sequence.length == n) := by
  intro l
  induction l with
  | nil => rfl
  | cons x xs ih =>
    show (sortInsert x (sortByLenDesc xs)).filter _ = _
    rw [filter_sortInsert x n (sortByLenDesc xs)]
    simp only [List.filter_cons, ih]

/-! ### Distinctness of reported unit strings (claim C10) -/

theorem add_repeat_result_distinct (results : List RepeatRec) (uniq : List (List Char))
    (subseq : List Char) (rps qps : List Nat) (is_rev : Bool) (cnt L : Nat)
    (h1 : results.Pairwise (fun a b => a.sequence ≠ b.sequence))
    (h2 : ∀ r ∈ results, r.sequence ∈ uniq)
    (hnew : subseq ∉ uniq) :
    (add_repeat_result results subseq rps qps is_rev cnt L).Pairwise
      (fun a b => a.sequence ≠ b.sequence) ∧
    ∀ r ∈ add_repeat_result results subseq rps qps is_rev cnt L,
      r.sequence ∈ subseq :: uniq := by
  unfold add_repeat_result
  split
  · exact ⟨h1, fun r hr => List.mem_cons_of_mem _ (h2 r hr)⟩
  · split
    · exact ⟨h1, fun r hr => List.mem_cons_of_mem _ (h2 r hr)⟩
    · constructor
      · refine List.pairwise_append.mpr ⟨h1, List.pairwise_singleton _ _, ?_⟩
        intro a ha b hb
        simp only [List.mem_singleton] at hb
        subst hb
        intro heq
        have heq2 : a.sequence = subseq := heq
        exact hnew (heq2 ▸ h2 a ha)
      · intro r hr
        rcases List.mem_append.mp hr with h3 | h3
        · exact List.mem_cons_of_mem _ (h2 r h3)
        · simp only [List.mem_singleton] at h3
          subst h3
          exact List.mem_cons_self _ _

theorem refPosLoop_distinct (reference query : List Char) (is_rev : Bool) (L : Nat)
    (qpos : List Nat) : ∀ (rps : List Nat) (st : SearchState),
    DistinctInv st → DistinctInv (refPosLoop reference query is_rev L qpos rps st) := by
  intro rps
  induction rps with
  | nil => intro st hst; exact hst
  | cons rp rps ih =>
    intro st hst
    simp only [refPosLoop]
    split
    · exact ih st hst
    case isFalse hnotmem =>
      split
      · exact ih _ (add_repeat_result_distinct st.1 st.2 _ _ _ _ _ _ hst.1 hst.2 hnotmem)
      · exact ih st hst

theorem refLoop_distinct (reference query : List Char) (is_rev : Bool) (L : Nat)
    (qmap : List (Int × List Nat)) : ∀ (entries : List (Int × List Nat)) (st : SearchState),
    DistinctInv st → DistinctInv (refLoop reference query is_rev L qmap entries st) := by
  intro entries
  induction entries with
  | nil => intro st hst; exact hst
  | cons e rest ih =>
    obtain ⟨h, ref_positions⟩ := e
    intro st hst
    simp only [refLoop]
    cases hfind : indexFind? qmap h with
    | none => exact ih st hst
    | some qpos =>
      exact ih _ (refPosLoop_distinct reference query is_rev L qpos ref_positions st hst)

theorem processLength_distinct (reference query : List Char) (is_rev : Bool) (L : Nat)
    (st : SearchState) (hst : DistinctInv st) :
    DistinctInv (processLength reference query is_rev L st) := by
  simp only [processLength]
  split
  · exact refLoop_distinct reference query is_rev L _ _ st hst
  · exact hst

theorem lengthLoop_distinct (reference query : List Char) (is_rev : Bool) (minL : Nat) :
    ∀ (lengths : List Nat) (st : SearchState),
    DistinctInv st → DistinctInv (lengthLoop reference query is_rev minL lengths st) := by
  intro lengths
  induction lengths with
  | nil => intro st hst; exact hst
  | cons L rest ih =>
    intro st hst
    simp only [lengthLoop]
    split
    · exact hst
    · exact ih _ (processLength_distinct reference query is_rev L st hst)

theorem process_sequence_distinct (reference query : List Char) (is_rev : Bool)
    (results : List RepeatRec) (minL maxL : Nat) (uniq : List (List Char))
    (hst : DistinctInv (results, uniq)) :
    DistinctInv (process_sequence reference query is_rev results minL maxL uniq) := by
  simp only [process_sequence]
  exact lengthLoop_distinct reference query is_rev minL _ (results, uniq) hst

theorem mem_find (reference query : List Char) (minL : Nat) (maxLopt : Option Nat)
    (par : Bool) (r : RepeatRec)
    (hr : r ∈ find_repeats_hash_dp reference query minL maxLopt par) :
    FromSearch reference query minL r := by
  rw [find_repeats_hash_dp] at hr
  exact mem_find_raw reference query minL maxLopt par r
    ((sortByLenDesc_perm _).mem_iff.mp hr)

/-- Witness for C5 at a concrete string, length and position. -/
theorem C5_witness :
    rolling_hash (hash_function (listSlice (['A','C','G','T','A']) 1 2))
        (charAt (['A','C','G','T','A']) 1) (charAt (['A','C','G','T','A']) 3) 2 =
      hash_function (listSlice (['A','C','G','T','A']) 2 2) :=
  C5_rolling_hash_shift_and_range.1 (['A','C','G','T','A']) 2 1 (by decide) (by decide)

theorem fromSearch_elim (reference query : List Char) (minL : Nat) (r : RepeatRec)
    (h : FromSearch reference query minL r) :
    ∃ L, minL ≤ L ∧ r.sequence.length = L ∧
      (∀ rp ∈ r.ref_positions, listSlice reference rp L = r.sequence) ∧
      (∀ qp ∈ r.query_positions,
        listSlice (if r.reversed = true then reverse_complement query else query) qp L =
          r.sequence) ∧
      2 ≤ r.query_positions.length ∧
      r.repeat_count = r.query_positions.length - 1 := by
  obtain ⟨L, hL, _, ⟨rp, hrp, hseq, hbound⟩, hq, hlen2, hcnt⟩ := h
  have hslen : r.sequence.length = L := by
    rw [hseq, listSlice_length]
    exact min_eq_left (by omega)
  refine ⟨L, hL, hslen, ?_, hq, hlen2, hcnt⟩
  intro rp2 hrp2
  rw [hrp] at hrp2
  simp only [List.mem_singleton] at hrp2
  subst hrp2
  exact hseq.symm

/-- C2: every returned record is exactly verified: the reference window at its
reference position equals the unit, and every recorded query position carries a
window of the comparison sequence (`query` forward, `reverse_complement query`
reverse) equal to the unit; hash collisions never produce a false positive. -/
theorem C2_no_hash_collision_false_positives (reference query : List Char)
    (min_length : Nat) (max_length : Option Nat) (use_parallel : Bool)
    (r : RepeatRec)
    (hr : r ∈ find_repeats_hash_dp reference query min_length max_length use_parallel) :
    (∀ rp ∈ r.ref_positions, listSlice reference rp r.sequence.length = r.sequence) ∧
    (∀ qp ∈ r.query_positions,
      listSlice (if r.reversed = true then reverse_complement query else query) qp
        r.sequence.length = r.sequence) := by
  obtain ⟨L, _, hslen, href, hq, _, _⟩ :=
    fromSearch_elim reference query min_length r
      (mem_find reference query min_length max_length use_parallel r hr)
  rw [hslen]
  exact ⟨href, hq⟩

/-- Witness for C2 at a concrete search with one returned record. -/
theorem C2_witness :
    listSlice exRef 0 exRec.sequence.length = exRec.sequence ∧
    listSlice exQuery 3 exRec.sequence.length = exRec.sequence := by
  constructor
  · exact (C2_no_hash_collision_false_positives exRef exQuery 3 none true exRec
      (by decide)).1 0 (by decide)
  · have h := (C2_no_hash_collision_false_positives exRef exQuery 3 none true exRec
      (by decide)).2 3 (by decide)
    simpa using h

/-- C7: every returned record has at least two query positions and its
`repeat_count` is `len(query_positions) - 1`. -/
theorem C7_minimum_multiplicity (reference query : List Char) (min_length : Nat)
    (max_length : Option Nat) (use_parallel : Bool) (r : RepeatRec)
    (hr : r ∈ find_repeats_hash_dp reference query min_length max_length use_parallel) :
    2 ≤ r.query_positions.length ∧ r.repeat_count = r.query_positions.length - 1 := by
  obtain ⟨L, _, _, _, _, h5, h6⟩ :=
    fromSearch_elim reference query min_length r
      (mem_find reference query min_length max_length use_parallel r hr)
  exact ⟨h5, h6⟩

/-- Witness for C7 at a concrete search with one returned record. -/
theorem C7_witness :
    2 ≤ exRec.query_positions.length ∧
      exRec.repeat_count = exRec.query_positions.length - 1 :=
  C7_minimum_multiplicity exRef exQuery 3 none true exRec (by decide)

/-- C6 counterexample: with `min_length = 1` the hash search does report a
length-1 unit (`find_repeats_hash_dp` has no length-1 skip, unlike the
brute-force sibling), refuting the claim as stated. -/
theorem C6_counterexample :
    (find_repeats_hash_dp ['A','C'] ['A','A'] 1 none true).any
      (fun r => r.sequence.length == 1) = true := by decide

/-- C6 amended: every returned unit has length at least `min_length`, so no
length-1 unit is returned whenever `min_length ≥ 2` (the default is 3); but a
`min_length` below 2 is neither rejected nor skipped. -/
theorem C6_amended_no_length_one (reference query : List Char) (min_length : Nat)
    (max_length : Option Nat) (use_parallel : Bool) (hmin : 2 ≤ min_length)
    (r : RepeatRec)
    (hr : r ∈ find_repeats_hash_dp reference query min_length max_length use_parallel) :
    2 ≤ r.sequence.length := by
  obtain ⟨L, hL, hslen, _⟩ :=
    fromSearch_elim reference query min_length r
      (mem_find reference query min_length max_length use_parallel r hr)
  omega

/-- Witness for the amended C6 at a concrete search with one returned record. -/
theorem C6_witness : 2 ≤ exRec.sequence.length :=
  C6_amended_no_length_one exRef exQuery 3 none true (by norm_num) exRec (by decide)

/-- C8: the returned list is sorted by descending unit length, and within every
unit length the records keep their discovery order (the order of
`find_repeats_raw`, the pre-sort accumulation). -/
theorem C8_output_ordering (reference query : List Char) (min_length : Nat)
    (max_length : Option Nat) (use_parallel : Bool) :
    (find_repeats_hash_dp reference query min_length max_length use_parallel).Pairwise
      (fun a b => b.sequence.length ≤ a.sequence.length) ∧
    ∀ n : Nat,
      (find_repeats_hash_dp reference query min_length max_length use_parallel).filter
        (fun r => r.sequence.length == n) =
      (find_repeats_raw reference query min_length max_length use_parallel).filter
        (fun r => r.sequence.length == n) := by
  constructor
  · simp only [find_repeats_hash_dp]
    exact sortByLenDesc_pairwise _
  · intro n
    simp only [find_repeats_hash_dp]
    exact filter_sortByLenDesc n _

/-- C10: in the sequential execution no two returned records carry the same
unit string, across orientations, because the shared seen-set is consulted
before any candidate is processed. -/
theorem C10_sequential_unit_uniqueness (reference query : List Char) (min_length : Nat)
    (max_length : Option Nat) :
    (find_repeats_hash_dp reference query min_length max_length false).Pairwise
      (fun a b => a.sequence ≠ b.sequence) := by
  have hsym : Symmetric (fun a b : RepeatRec => a.sequence ≠ b.sequence) :=
    fun a b h heq => h heq.symm
  simp only [find_repeats_hash_dp]
  refine (List.Perm.pairwise_iff @hsym (sortByLenDesc_perm _)).mpr ?_
  simp only [find_repeats_raw]
  split
  · exact List.Pairwise.nil
  · rw [if_neg (by simp)]
    have h0 : DistinctInv (([] : List RepeatRec), ([] : List (List Char))) :=
      ⟨List.Pairwise.nil, by simp⟩
    exact (process_sequence_distinct reference (reverse_complement query) true _ min_length _ _
      (process_sequence_distinct reference query false [] min_length _ [] h0)).1

/-- C4 counterexample: an empty `reference` makes the call return the empty
list (no error is raised), the same value as the valid no-matches outcome on
nonempty inputs, refuting both the raising and the distinguishability parts. -/
theorem C4_counterexample :
    find_repeats_hash_dp [] ['A','C','G','T'] 3 none true = [] ∧
    find_repeats_hash_dp ['A','C','G','T'] ['T','T','T','T'] 3 none true = [] := by decide

/-- C4 amended: with any positive `min_length`, a call on an empty `reference`
or `query` returns the empty result list synchronously instead of raising, an
outcome not distinguished from the no-matches empty list. -/
theorem C4_amended_empty_input (reference query : List Char) (min_length : Nat)
    (max_length : Option Nat) (use_parallel : Bool) (hmin : 1 ≤ min_length)
    (hemp : reference = [] ∨ query = []) :
    find_repeats_hash_dp reference query min_length max_length use_parallel = [] := by
  have hmin0 : min reference.length query.length = 0 := by
    rcases hemp with rfl | rfl <;> simp
  cases max_length with
  | none =>
    simp only [find_repeats_hash_dp, find_repeats_raw, hmin0]
    rw [if_pos (by omega)]
    rfl
  | some m =>
    simp only [find_repeats_hash_dp, find_repeats_raw, hmin0, Nat.min_zero]
    rw [if_pos (by omega)]
    rfl

/-- Witness for the amended C4 at a concrete empty-reference call. -/
theorem C4_witness : find_repeats_hash_dp [] ['A'] 1 none true = [] :=
  C4_amended_empty_input [] ['A'] 1 none true (by norm_num) (Or.inl rfl)

/-- C1 evidence: on `reference = "AAAA"`, `query = "AAAAAA"`, `min_length = 3`,
the search returns a record whose unit `"AAA"` occurs at two start positions of
the reference; the single-occurrence rule claimed by the spec (and by the
function's own docstring and the brute-force sibling) is not enforced. -/
theorem C1_code_eval :
    (find_repeats_hash_dp c1ref c1query 3 none true).map (fun r => r.sequence) =
      [['A','A','A','A'], ['A','A','A']] ∧
    countOcc c1ref ['A','A','A'] = 2 := by decide

set_option maxRecDepth 100000 in
set_option maxHeartbeats 4000000 in
/-- C3 evidence: on these inputs (`max_length` defaults to 21 > 20, so
`use_parallel = true` takes the two-task branch) the parallel run returns
reverse-orientation records while the sequential run returns none: the forward
pass accumulates more than 100 records into the shared `results` list, so the
reverse pass's early break (`len(local_results) > 100 and length < min_length+5`)
fires at its very first length and aborts the whole reverse scan. The result
sets of `(unit, orientation, repeat_count)` triples therefore differ. -/
theorem C3_code_eval :
    (find_repeats_hash_dp c3ref c3query 3 none true).any (fun r => r.reversed) = true ∧
    (find_repeats_hash_dp c3ref c3query 3 none false).any (fun r => r.reversed) = false := by
  constructor
  · decide
  · decide

/-- C9 counterexample: the complement step has no fixed sentinel for symbols
outside the alphabet: it maps every unknown symbol to itself, so two distinct
unknown symbols have distinct images and no single sentinel value exists. -/
theorem C9_counterexample :
    ¬ ∃ s : Char, ∀ c : Char, c ≠ 'A' → c ≠ 'C' → c ≠ 'G' → c ≠ 'T' →
      complementBase c = s := by
  rintro ⟨s, hs⟩
  have h1 := hs 'N' (by decide) (by decide) (by decide) (by decide)
  have h2 := hs 'X' (by decide) (by decide) (by decide) (by decide)
  exact absurd (h1.trans h2.symm) (by decide)

/-- C9 amended: every symbol outside `{A, C, G, T}` hashes to the fixed sentinel
value 0, while the complement step retains each such symbol unchanged (the
fallback is the identity, not a fixed sentinel), so the symbol is kept in the
reverse-complemented sequence. -/
theorem C9_amended_unknown_symbols (c : Char) (hA : c ≠ 'A') (hC : c ≠ 'C')
    (hG : c ≠ 'G') (hT : c ≠ 'T') :
    BASE_VAL c = 0 ∧ complementBase c = c ∧ reverse_complement [c] = [c] := by
  have hcomp : complementBase c = c := by
    simp [complementBase, hA, hC, hG, hT]
  refine ⟨?_, hcomp, ?_⟩
  · simp [BASE_VAL, hA, hC, hG, hT]
  · simp [reverse_complement, hcomp]

/-- Witness for the amended C9 at the unknown symbol `N`. -/
theorem C9_witness :
    BASE_VAL 'N' = 0 ∧ complementBase 'N' = 'N' ∧ reverse_complement ['N'] = ['N'] :=
  C9_amended_unknown_symbols 'N' (by decide) (by decide) (by decide) (by decide)
